import Mathlib

/-!
# Verification of the distance-vector routing simulator and the bit-stuffing codec

This file gives a shallow embedding of `DVA.py` (a synchronous distance-vector
routing simulator) and of the bit-stuffing half of `Bit_stuffing.py`, and proves
properties of the embedded program.

Python dictionaries are modelled as association lists that preserve insertion
order: assigning to an existing key replaces the value in place, assigning a
fresh key appends it at the end, and iteration over `.items()` is iteration over
the list.  Python exceptions (the `KeyError` that `init_tables` can raise while
filling the neighbor map) are modelled with `Option`: `none` means the call
raised.  Machine-integer concerns do not arise: Python integers are unbounded,
so costs are modelled as `Int`.
-/

namespace DVA

variable {Node : Type} [DecidableEq Node] {α : Type}

/-- The infinity sentinel (`INF = 10**9` in `DVA.py`). -/
def INF : Int := 10 ^ 9

/-- Python dict assignment `l[k] = v`: replace the first binding of `k` in
place, or append `(k, v)` if `k` is absent. -/
def dictSet : List (Node × α) → Node → α → List (Node × α)
  | [], k, v => [(k, v)]
  | (k1, v1) :: rest, k, v =>
      if k1 = k then (k, v) :: rest else (k1, v1) :: dictSet rest k v

/-- Python dict read `l[k]`, with a default for the (unreachable in the
modelled code paths) missing-key case. -/
def dictGetD : List (Node × α) → Node → α → α
  | [], _, dflt => dflt
  | (k1, v1) :: rest, k, dflt => if k1 = k then v1 else dictGetD rest k dflt

/-- A dict of dicts, e.g. `dist: node -> dict(dest -> cost)`. -/
abbrev Table (Node : Type) (α : Type) : Type := List (Node × List (Node × α))

/-- Nested read `t[u][d]` with a default. -/
def tGet (t : Table Node α) (u d : Node) (dflt : α) : α :=
  dictGetD (dictGetD t u []) d dflt

/-- Nested assignment `t[u][d] = x`: mutate the inner dict of key `u`
(appending a fresh row in the missing-key case, which the modelled code never
reaches because every row is created up front). -/
def tSet : Table Node α → Node → Node → α → Table Node α
  | [], u, d, x => [(u, [(d, x)])]
  | (k, inner) :: rest, u, d, x =>
      if k = u then (k, dictSet inner d x) :: rest
      else (k, inner) :: tSet rest u d x

/-- The distance tables `dist: node -> dict(dest -> cost)`. -/
abbrev Dist (Node : Type) : Type := Table Node Int

/-- The next-hop tables `next_hop: node -> dict(dest -> next_hop)`;
`None` is `none`. -/
abbrev NextHop (Node : Type) : Type := Table Node (Option Node)

/-- The neighbor map `neighbors: node -> {neighbor: cost}`. -/
abbrev Nbrs (Node : Type) : Type := Table Node Int

/-- One statement `neighbors[u][v] = c` of `init_tables`.  Reading
`neighbors[u]` raises `KeyError` (modelled as `none`) when `u` is not an
outer key, i.e. not in the node list. -/
def addEdge : Nbrs Node → Node → Node → Int → Option (Nbrs Node)
  | [], _, _, _ => none
  | (k, inner) :: rest, u, v, c =>
      if k = u then some ((k, dictSet inner v c) :: rest)
      else (addEdge rest u v c).map (fun r => (k, inner) :: r)

/-- The edge loop of `init_tables`: `neighbors[u][v] = c; neighbors[v][u] = c`
for every `(u, v, c)` in `edges`; the first `KeyError` aborts the whole call. -/
def buildEdges : List (Node × Node × Int) → Nbrs Node → Option (Nbrs Node)
  | [], nb => some nb
  | e :: rest, nb =>
      match addEdge nb e.1 e.2.1 e.2.2 with
      | none => none
      | some nb1 =>
          match addEdge nb1 e.2.1 e.1 e.2.2 with
          | none => none
          | some nb2 => buildEdges rest nb2

/-- The neighbor map of `init_tables`: run the edge loop on
`{u: {} for u in nodes}`. -/
def buildNbrs (nodes : List Node) (edges : List (Node × Node × Int)) :
    Option (Nbrs Node) :=
  buildEdges edges (nodes.map (fun u => (u, [])))

/-- `dist = {u: {d: INF for d in nodes} for u in nodes}`. -/
def distInit (nodes : List Node) : Dist Node :=
  nodes.map (fun u => (u, nodes.map (fun d => (d, INF))))

/-- `next_hop = {u: {d: None for d in nodes} for u in nodes}`. -/
def nhInit (nodes : List Node) : NextHop Node :=
  nodes.map (fun u => (u, nodes.map (fun d => (d, (none : Option Node)))))

/-- One pass of the per-node loop of `init_tables` for node `u`: set the self
entry to `(0, u)`, then the direct-neighbor entries to `(c, v)` for every
`(v, c)` in `neighbors[u]`. -/
def initNodeStep (nb : Nbrs Node) (acc : Dist Node × NextHop Node)
    (u : Node) : Dist Node × NextHop Node :=
  let acc1 := (tSet acc.1 u u 0, tSet acc.2 u u (some u))
  (dictGetD nb u []).foldl
    (fun acc2 vc => (tSet acc2.1 u vc.1 vc.2, tSet acc2.2 u vc.1 (some vc.1)))
    acc1

/-- The per-node loop of `init_tables`. -/
def initLoop (nodes : List Node) (nb : Nbrs Node)
    (d : Dist Node) (n : NextHop Node) : Dist Node × NextHop Node :=
  nodes.foldl (initNodeStep nb) (d, n)

/-- `init_tables(nodes, edges)` of `DVA.py`, returning
`(neighbors, dist, next_hop)`; `none` models the `KeyError` raised when an
edge references an identity outside the node list. -/
def init_tables (nodes : List Node) (edges : List (Node × Node × Int)) :
    Option (Nbrs Node × Dist Node × NextHop Node) :=
  (buildNbrs nodes edges).map (fun nb =>
    let dn := initLoop nodes nb (distInit nodes) (nhInit nodes)
    (nb, dn.1, dn.2))

/-- `send_vector(from_node, to_node, dist_from, use_poisoned_reverse)` of
`DVA.py`.  Both branches of the flag test execute `vec[dest] = cost`; the
poisoning branch is a documented no-op ("caller will handle poisoning"). -/
def send_vector (from_node to_node : Node) (dist_from : List (Node × Int))
    (use_poisoned_reverse : Bool) : List (Node × Int) :=
  dist_from.foldl
    (fun vec dc =>
      if use_poisoned_reverse = true then dictSet vec dc.1 dc.2
      else dictSet vec dc.1 dc.2)
    []

/-- The advertised cost that the in-loop code of `distance_vector` computes for
one destination: `adv_cost = old_dist[v][dest]`, overridden to `INF` when
poisoned reverse is on and `old_next[v][dest] == u`. -/
def advCost (pr : Bool) (oldd : Dist Node) (oldn : NextHop Node)
    (v u dest : Node) : Int :=
  let adv := tGet oldd v dest INF
  if pr = true ∧ tGet oldn v dest none = some u then INF else adv

/-- The candidate cost `via_v = cost_uv + advertised[dest]` of `DVA.py`:
plain (unbounded) integer addition, applied uniformly, also when the
advertised cost is the `INF` sentinel. -/
def via_cost (cost_uv adv : Int) : Int := cost_uv + adv

/-- The running state of one synchronous round: the live `dist` and `next_hop`
tables being mutated, and the `updated` flag. -/
structure DVState (Node : Type) where
  dist : Dist Node
  next_hop : NextHop Node
  updated : Bool

/-- The body of the innermost `for dest in nodes` loop of `distance_vector`:
skip if `old_dist[u][v] >= INF`, else compute
`via_v = cost_uv + advertised[dest]` and apply the strict-improvement update
against the live table. -/
def innerStep (pr : Bool) (oldd : Dist Node) (oldn : NextHop Node)
    (u v : Node) (cuv : Int) (st : DVState Node) (dest : Node) : DVState Node :=
  if INF ≤ tGet oldd u v INF then st
  else
    let via_v := via_cost cuv (advCost pr oldd oldn v u dest)
    if via_v < tGet st.dist u dest INF then
      { dist := tSet st.dist u dest via_v
        next_hop := tSet st.next_hop u dest (some v)
        updated := true }
    else st

/-- One synchronous round of `distance_vector`: `old_dist`/`old_next` are the
frozen snapshot (input `d`, `n`), the live tables start as that same snapshot,
and the three nested loops (node, neighbor, destination) accumulate updates. -/
def roundStep (nodes : List Node) (nb : Nbrs Node) (pr : Bool)
    (d : Dist Node) (n : NextHop Node) : DVState Node :=
  nodes.foldl
    (fun st u =>
      (dictGetD nb u []).foldl
        (fun st2 vc => nodes.foldl (innerStep pr d n u vc.1 vc.2) st2)
        st)
    ⟨d, n, false⟩

/-- The tables produced by one round (the round function as a map on table
pairs). -/
def roundTables (nodes : List Node) (nb : Nbrs Node) (pr : Bool)
    (dn : Dist Node × NextHop Node) : Dist Node × NextHop Node :=
  let st := roundStep nodes nb pr dn.1 dn.2
  (st.dist, st.next_hop)

/-- The `while True` loop of `distance_vector`.  Each pass increments the
iteration counter, runs one round, and stops either when the round made no
update (the converged exit, flag `true`) or when the counter exceeds 50 (the
safety exit, flag `false`).  The loop body itself guarantees at most 51
passes from `it = 0`, so `fuel = 51 - it` is exact: the `fuel = 0` branch is
unreachable from the entry point used below (proved in `dvLoopF_iterations`).
Structural recursion on the fuel keeps the definition kernel-computable. -/
def dvLoopF (nodes : List Node) (nb : Nbrs Node) (pr : Bool) :
    Nat → Dist Node → NextHop Node → Nat →
      Dist Node × NextHop Node × Nat × Bool
  | 0, d, n, it => (d, n, it, false)
  | fuel + 1, d, n, it =>
      let st := roundStep nodes nb pr d n
      let it1 := it + 1
      if st.updated = false then (st.dist, st.next_hop, it1, true)
      else if 50 < it1 then (st.dist, st.next_hop, it1, false)
      else dvLoopF nodes nb pr fuel st.dist st.next_hop it1

/-- `distance_vector` together with its internal loop state: the final tables,
the value of the local `iteration` counter at exit, and whether the exit was
the converged one (`true`) or the 50-iteration safety break (`false`). -/
def dvDriver (nodes : List Node) (edges : List (Node × Node × Int))
    (pr : Bool) : Option (Dist Node × NextHop Node × Nat × Bool) :=
  (init_tables nodes edges).map (fun t => dvLoopF nodes t.1 pr 51 t.2.1 t.2.2 0)

/-- All inner entries of a neighbor map satisfy `Q` of their row key. -/
def NbrProp (Q : Node → Node × Int → Prop) (nb : Nbrs Node) : Prop :=
  ∀ row ∈ nb, ∀ p ∈ row.2, Q row.1 p

/-- The self-route invariant: every node of the node list has `(0, itself)`
as its entry for itself. -/
def SelfOK (nodes : List Node) (d : Dist Node) (n : NextHop Node) : Prop :=
  ∀ u ∈ nodes, tGet d u u INF = 0 ∧ tGet n u u none = some u

/-- Every cost entry of a distance table is nonnegative. -/
def NonNegD (d : Dist Node) : Prop := ∀ a b, 0 ≤ tGet d a b INF

/-- `distance_vector(nodes, edges, use_poisoned_reverse, verbose)` of
`DVA.py`.  Its return statement is `return dist, next_hop`: the iteration
counter and the reason for stopping are not part of the returned value.
`verbose` only controls printing, which is not modelled. -/
def distance_vector (nodes : List Node) (edges : List (Node × Node × Int))
    (use_poisoned_reverse : Bool) (verbose : Bool) :
    Option (Dist Node × NextHop Node) :=
  (init_tables nodes edges).map (fun t =>
    let r := dvLoopF nodes t.1 use_poisoned_reverse 51 t.2.1 t.2.2 0
    (r.1, r.2.1))

end DVA

/-!
## The bit-stuffing codec of `Bit_stuffing.py`

Bit strings are modelled as `List Bool` (`'1'` is `true`), and text messages as
lists of character code points (`List Nat`, the values of Python `ord`).
`from_bits` raises `ValueError` when the bit count is not a multiple of 8;
this is modelled by returning `none`, as is the missing-flag `ValueError` of
`bit_unstuff`.
-/

namespace Bit_stuffing

/-- `FLAG_BITS = '01111110'`. -/
def FLAG_BITS : List Bool := [false, true, true, true, true, true, true, false]

/-- Binary digits of `n`, most significant first (`[]` for 0): the digits the
format `f'{n:b}'` produces before any zero padding.  Structural recursion on a
fuel that always dominates the number of digits. -/
def toBinAux : Nat → Nat → List Bool
  | _, 0 => []
  | 0, _ + 1 => []
  | fuel + 1, n + 1 => toBinAux fuel ((n + 1) / 2) ++ [decide ((n + 1) % 2 = 1)]

/-- `f'{n:08b}'`: the binary digits of `n` padded with leading zeros to at
least 8 digits (more than 8 digits are kept as is, exactly like the format). -/
def byteBits (n : Nat) : List Bool :=
  let bin := toBinAux n n
  List.replicate (8 - bin.length) false ++ bin

/-- `to_bits(s)`: concatenate `f'{ord(c):08b}'` over the characters of `s`. -/
def to_bits (s : List Nat) : List Bool :=
  (s.map byteBits).flatten

/-- `int(byte, 2)`. -/
def bitsToNat (l : List Bool) : Nat :=
  l.foldl (fun acc b => 2 * acc + (if b then 1 else 0)) 0

/-- The slices `b[i:i+8]` of `from_bits`: full chunks of 8 and a possibly
shorter final chunk. -/
def chunk8 : List Bool → List (List Bool)
  | [] => []
  | b0 :: b1 :: b2 :: b3 :: b4 :: b5 :: b6 :: b7 :: rest =>
      [b0, b1, b2, b3, b4, b5, b6, b7] :: chunk8 rest
  | l => [l]

/-- `from_bits(b)`: raises (`none`) unless the length is a multiple of 8, then
decodes each 8-bit chunk with `chr(int(byte, 2))`. -/
def from_bits (b : List Bool) : Option (List Nat) :=
  if b.length % 8 = 0 then some ((chunk8 b).map bitsToNat) else none

/-- The stuffing loop of `bit_stuff`: append each bit and insert a `'0'`
immediately after five consecutive `'1'`s; `c` is the running count of
consecutive ones. -/
def stuffAux : List Bool → Nat → List Bool
  | [], _ => []
  | b :: rest, c =>
      if b = true then
        if c + 1 = 5 then b :: false :: stuffAux rest 0
        else b :: stuffAux rest (c + 1)
      else b :: stuffAux rest 0

/-- The un-stuffing loop of `bit_unstuff`: append each bit and skip the bit
that follows five consecutive `'1'`s; `c` is the running count of consecutive
ones. -/
def unstuffAux : List Bool → Nat → List Bool
  | [], _ => []
  | b :: rest, c =>
      if b = true then
        if c + 1 = 5 then
          b :: (match rest with
            | [] => []
            | _ :: rest2 => unstuffAux rest2 0)
        else b :: unstuffAux rest (c + 1)
      else b :: unstuffAux rest 0

/-- `bit_stuff(data_str)`: `FLAG_BITS + stuffed data bits + FLAG_BITS`. -/
def bit_stuff (s : List Nat) : List Bool :=
  FLAG_BITS ++ stuffAux (to_bits s) 0 ++ FLAG_BITS

/-- `bit_unstuff(frame_bits)`: check the start and end flags (raise — `none` —
if missing), strip them (`frame_bits[8:-8]`), undo the stuffing, and decode
with `from_bits` (which raises unless the bit count is a multiple of 8;
the Python code prints a warning first, which is not modelled). -/
def bit_unstuff (frame : List Bool) : Option (List Nat) :=
  if frame.take 8 = FLAG_BITS ∧ frame.drop (frame.length - 8) = FLAG_BITS then
    from_bits (unstuffAux ((frame.drop 8).take ((frame.drop 8).length - 8)) 0)
  else none

end Bit_stuffing

namespace DVA

variable {Node : Type} [DecidableEq Node] {α : Type}

/-- A `List.foldl` preserves any invariant its step function preserves. -/
theorem foldl_pres {β γ : Type} {P : γ → Prop} {f : γ → β → γ} :
    ∀ (l : List β) (acc : γ), P acc → (∀ b a, a ∈ l → P b → P (f b a)) →
      P (l.foldl f acc)
  | [], acc, hacc, _ => hacc
  | b :: rest, acc, hacc, hstep =>
      foldl_pres rest (f acc b) (hstep acc b (List.mem_cons_self b rest) hacc)
        (fun x a ha hx => hstep x a (List.mem_cons_of_mem b ha) hx)

theorem dictGetD_dictSet_self (l : List (Node × α)) (k : Node) (v dflt : α) :
    dictGetD (dictSet l k v) k dflt = v := by
  induction l with
  | nil => simp [dictSet, dictGetD]
  | cons p rest ih =>
      obtain ⟨k1, v1⟩ := p
      by_cases h : k1 = k <;> simp [dictSet, dictGetD, h, ih]

theorem dictGetD_dictSet_ne (l : List (Node × α)) {k k1 : Node} (v dflt : α)
    (h : k1 ≠ k) : dictGetD (dictSet l k v) k1 dflt = dictGetD l k1 dflt := by
  induction l with
  | nil => simp [dictSet, dictGetD, Ne.symm h]
  | cons p rest ih =>
      obtain ⟨k2, v2⟩ := p
      by_cases h2 : k2 = k
      · subst h2
        simp [dictSet, dictGetD, Ne.symm h]
      · simp [dictSet, dictGetD, h2, ih]

theorem tGet_tSet_self (t : Table Node α) (u d : Node) (x dflt : α) :
    tGet (tSet t u d x) u d dflt = x := by
  induction t with
  | nil => simp [tSet, tGet, dictGetD, dictGetD_dictSet_self, dictSet]
  | cons p rest ih =>
      obtain ⟨k, inner⟩ := p
      by_cases h : k = u
      · subst h
        simp [tSet, tGet, dictGetD, dictGetD_dictSet_self]
      · simpa [tSet, tGet, dictGetD, h] using ih

theorem tGet_tSet_ne (t : Table Node α) {u d a b : Node} (x dflt : α)
    (h : a ≠ u ∨ b ≠ d) : tGet (tSet t u d x) a b dflt = tGet t a b dflt := by
  induction t with
  | nil =>
      rcases h with h | h
      · simp [tSet, tGet, dictGetD, Ne.symm h]
      · by_cases h2 : u = a
        · subst h2; simp [tSet, tGet, dictGetD, Ne.symm h]
        · simp [tSet, tGet, dictGetD, h2]
  | cons p rest ih =>
      obtain ⟨k, inner⟩ := p
      by_cases h2 : k = u
      · subst h2
        by_cases h3 : k = a
        · subst h3
          rcases h with h | h
          · exact absurd rfl h
          · simp [tSet, tGet, dictGetD, dictGetD_dictSet_ne _ _ _ h]
        · simp [tSet, tGet, dictGetD, h3]
      · by_cases h3 : k = a
        · subst h3; simp [tSet, tGet, dictGetD, h2]
        · simp only [tSet, if_neg h2]
          simp only [tGet, dictGetD, if_neg h3]
          exact ih

/-- Each update of the inner destination loop only ever lowers a live-table
entry (the update is guarded by a strict comparison). -/
theorem innerStep_dist_le (pr : Bool) (oldd : Dist Node) (oldn : NextHop Node)
    (u v : Node) (cuv : Int) (st : DVState Node) (dest : Node) (a b : Node) :
    tGet (innerStep pr oldd oldn u v cuv st dest).dist a b INF ≤
      tGet st.dist a b INF := by
  by_cases h1 : INF ≤ tGet oldd u v INF
  · simp [innerStep, h1]
  · by_cases h2 : via_cost cuv (advCost pr oldd oldn v u dest) < tGet st.dist u dest INF
    · by_cases h : a = u ∧ b = dest
      · obtain ⟨ha, hb⟩ := h
        subst ha; subst hb
        simp only [innerStep, if_neg h1, if_pos h2]
        rw [tGet_tSet_self]
        exact le_of_lt h2
      · simp only [innerStep, if_neg h1, if_pos h2]
        rw [tGet_tSet_ne _ _ _ (not_and_or.mp h)]
    · simp [innerStep, h1, h2]

/-- One synchronous round never increases any live-table entry. -/
theorem roundStep_dist_le (nodes : List Node) (nb : Nbrs Node) (pr : Bool)
    (d : Dist Node) (n : NextHop Node) (a b : Node) :
    tGet (roundStep nodes nb pr d n).dist a b INF ≤ tGet d a b INF := by
  refine foldl_pres (P := fun st : DVState Node =>
    ∀ a b, tGet st.dist a b INF ≤ tGet d a b INF) nodes ⟨d, n, false⟩
    (fun a b => le_refl _) ?_ a b
  intro st u _ hst
  refine foldl_pres (P := fun st : DVState Node =>
    ∀ a b, tGet st.dist a b INF ≤ tGet d a b INF) _ st hst ?_
  intro st2 vc _ hst2
  refine foldl_pres (P := fun st : DVState Node =>
    ∀ a b, tGet st.dist a b INF ≤ tGet d a b INF) nodes st2 hst2 ?_
  intro st3 dest _ hst3 a b
  exact le_trans (innerStep_dist_le pr d n u vc.1 vc.2 st3 dest a b) (hst3 a b)

/-- Across the whole round loop, no table entry ever increases. -/
theorem dvLoopF_dist_le (nodes : List Node) (nb : Nbrs Node) (pr : Bool) :
    ∀ (fuel : Nat) (d : Dist Node) (n : NextHop Node) (it : Nat) (a b : Node),
      tGet (dvLoopF nodes nb pr fuel d n it).1 a b INF ≤ tGet d a b INF := by
  intro fuel
  induction fuel with
  | zero => intro d n it a b; exact le_refl _
  | succ fuel ih =>
      intro d n it a b
      by_cases hu : (roundStep nodes nb pr d n).updated = false
      · simp only [dvLoopF, if_pos hu]
        exact roundStep_dist_le nodes nb pr d n a b
      · by_cases hgt : 50 < it + 1
        · simp only [dvLoopF, if_neg hu, if_pos hgt]
          exact roundStep_dist_le nodes nb pr d n a b
        · simp only [dvLoopF, if_neg hu, if_neg hgt]
          exact le_trans (ih _ _ _ a b) (roundStep_dist_le nodes nb pr d n a b)

/-- The loop exits with an iteration count of at most 51, and any
non-converged exit happens exactly at iteration 51.  The hypothesis
`fuel + it = 51` is the invariant of the canonical entry point
(`fuel = 51`, `it = 0`): the recursive call only happens while
`it + 1 ≤ 50`, so the fuel never runs out. -/
theorem dvLoopF_iterations (nodes : List Node) (nb : Nbrs Node) (pr : Bool) :
    ∀ (fuel : Nat) (d : Dist Node) (n : NextHop Node) (it : Nat),
      fuel + it = 51 →
      (dvLoopF nodes nb pr fuel d n it).2.2.1 ≤ 51 ∧
        ((dvLoopF nodes nb pr fuel d n it).2.2.2 = true ∨
          (dvLoopF nodes nb pr fuel d n it).2.2.1 = 51) := by
  intro fuel
  induction fuel with
  | zero =>
      intro d n it hit
      exact ⟨by simp [dvLoopF]; omega, Or.inr (by simp [dvLoopF]; omega)⟩
  | succ fuel ih =>
      intro d n it hit
      by_cases hu : (roundStep nodes nb pr d n).updated = false
      · simp only [dvLoopF, if_pos hu]
        exact ⟨by omega, Or.inl trivial⟩
      · by_cases hgt : 50 < it + 1
        · simp only [dvLoopF, if_neg hu, if_pos hgt]
          exact ⟨by omega, Or.inr (by omega)⟩
        · simp only [dvLoopF, if_neg hu, if_neg hgt]
          exact ih _ _ _ (by omega)

/-- `neighbors[u][v] = c` succeeds exactly when `u` is an outer key of the
neighbor map (otherwise Python raises `KeyError`). -/
theorem addEdge_isSome (nb : Nbrs Node) (u v : Node) (c : Int) :
    (addEdge nb u v c).isSome = true ↔ u ∈ nb.map Prod.fst := by
  induction nb with
  | nil => simp [addEdge]
  | cons p rest ih =>
      obtain ⟨k, inner⟩ := p
      by_cases h : k = u
      · simp [addEdge, h]
      · simp [addEdge, h, Option.isSome_map', ih, Ne.symm h]

/-- `neighbors[u][v] = c` never changes the outer keys of the neighbor map. -/
theorem addEdge_keys {nb nb1 : Nbrs Node} {u v : Node} {c : Int}
    (h : addEdge nb u v c = some nb1) :
    nb1.map Prod.fst = nb.map Prod.fst := by
  induction nb generalizing nb1 with
  | nil => simp [addEdge] at h
  | cons p rest ih =>
      obtain ⟨k, inner⟩ := p
      by_cases hk : k = u
      · simp only [addEdge, if_pos hk] at h
        cases h
        simp
      · simp only [addEdge, if_neg hk, Option.map_eq_some'] at h
        obtain ⟨r, hr, hcons⟩ := h
        subst hcons
        simp [ih hr]

/-- The edge loop of `init_tables` succeeds exactly when every edge endpoint
is an outer key of the accumulator (costs and duplicates are never examined). -/
theorem buildEdges_isSome :
    ∀ (edges : List (Node × Node × Int)) (nb : Nbrs Node),
      ((buildEdges edges nb).isSome = true ↔
        ∀ e ∈ edges, e.1 ∈ nb.map Prod.fst ∧ e.2.1 ∈ nb.map Prod.fst) := by
  intro edges
  induction edges with
  | nil => intro nb; simp [buildEdges]
  | cons e rest ih =>
      intro nb
      by_cases h1 : e.1 ∈ nb.map Prod.fst
      · obtain ⟨nbA, hA⟩ := Option.isSome_iff_exists.mp
          ((addEdge_isSome nb e.1 e.2.1 e.2.2).mpr h1)
        by_cases h2 : e.2.1 ∈ nb.map Prod.fst
        · obtain ⟨nbB, hB⟩ := Option.isSome_iff_exists.mp
            ((addEdge_isSome nbA e.2.1 e.1 e.2.2).mpr
              ((addEdge_keys hA).symm ▸ h2))
          have hkeys : nbB.map Prod.fst = nb.map Prod.fst :=
            (addEdge_keys hB).trans (addEdge_keys hA)
          simp only [buildEdges, hA, hB]
          rw [ih nbB, hkeys]
          constructor
          · intro hr x hx
            rcases List.mem_cons.mp hx with hx | hx
            · subst hx; exact ⟨h1, h2⟩
            · exact hr x hx
          · intro hall x hx
            exact hall x (List.mem_cons_of_mem _ hx)
        · have hnone : addEdge nbA e.2.1 e.1 e.2.2 = none := by
            rw [← Option.not_isSome_iff_eq_none, addEdge_isSome, addEdge_keys hA]
            exact h2
          simp only [buildEdges, hA, hnone]
          refine iff_of_false (by simp) ?_
          intro hall
          exact h2 (hall e (List.mem_cons_self e rest)).2
      · have hnone : addEdge nb e.1 e.2.1 e.2.2 = none := by
          rw [← Option.not_isSome_iff_eq_none, addEdge_isSome]
          exact h1
        simp only [buildEdges, hnone]
        refine iff_of_false (by simp) ?_
        intro hall
        exact h1 (hall e (List.mem_cons_self e rest)).1

/-- Appending a fresh key to a dict is a plain append. -/
theorem dictSet_append (l : List (Node × α)) (k : Node) (v : α)
    (h : k ∉ l.map Prod.fst) : dictSet l k v = l ++ [(k, v)] := by
  induction l with
  | nil => simp [dictSet]
  | cons p rest ih =>
      obtain ⟨k1, v1⟩ := p
      simp only [List.map_cons, List.mem_cons] at h
      push_neg at h
      simp [dictSet, Ne.symm h.1, ih h.2]

/-- Re-inserting the items of a dict with no duplicate keys rebuilds the
same dict. -/
theorem foldl_dictSet_eq (d acc : List (Node × α))
    (h : ((acc ++ d).map Prod.fst).Nodup) :
    d.foldl (fun vec dc => dictSet vec dc.1 dc.2) acc = acc ++ d := by
  induction d generalizing acc with
  | nil => simp
  | cons p rest ih =>
      obtain ⟨k, v⟩ := p
      have hmap : ((acc ++ (k, v) :: rest).map Prod.fst) =
          acc.map Prod.fst ++ k :: rest.map Prod.fst := by simp
      rw [hmap] at h
      have hk : k ∉ acc.map Prod.fst := by
        intro hmem
        exact (List.disjoint_of_nodup_append h) hmem (List.mem_cons_self k _)
      have step : dictSet acc k v = acc ++ [(k, v)] := dictSet_append acc k v hk
      have h2 : (((acc ++ [(k, v)]) ++ rest).map Prod.fst).Nodup := by
        have : (acc ++ [(k, v)]) ++ rest = acc ++ (k, v) :: rest := by simp
        rw [this, hmap]
        exact h
      calc ((k, v) :: rest).foldl (fun vec dc => dictSet vec dc.1 dc.2) acc
      _ = rest.foldl (fun vec dc => dictSet vec dc.1 dc.2) (acc ++ [(k, v)]) := by
          rw [List.foldl_cons, step]
      _ = (acc ++ [(k, v)]) ++ rest := ih (acc ++ [(k, v)]) h2
      _ = acc ++ (k, v) :: rest := by simp

theorem mem_dictSet {l : List (Node × α)} {k : Node} {v : α} {p : Node × α}
    (h : p ∈ dictSet l k v) : p = (k, v) ∨ p ∈ l := by
  induction l with
  | nil => simpa [dictSet] using h
  | cons q rest ih =>
      obtain ⟨k1, v1⟩ := q
      by_cases hk : k1 = k
      · subst hk
        rcases List.mem_cons.mp (by simpa [dictSet] using h) with h1 | h1
        · exact Or.inl h1
        · exact Or.inr (List.mem_cons_of_mem _ h1)
      · rcases List.mem_cons.mp (by simpa [dictSet, hk] using h) with h1 | h1
        · exact Or.inr (h1 ▸ List.mem_cons_self _ _)
        · rcases ih h1 with h2 | h2
          · exact Or.inl h2
          · exact Or.inr (List.mem_cons_of_mem _ h2)

/-- `neighbors[u][v] = c` preserves any per-row property that the new entry
also satisfies. -/
theorem addEdge_pres {Q : Node → Node × Int → Prop} :
    ∀ {nb nb1 : Nbrs Node} {u v : Node} {c : Int},
      addEdge nb u v c = some nb1 → NbrProp Q nb → Q u (v, c) →
        NbrProp Q nb1 := by
  intro nb
  induction nb with
  | nil => intro nb1 u v c h _ _; simp [addEdge] at h
  | cons row rest ih =>
      intro nb1 u v c h hnb hq
      obtain ⟨k, inner⟩ := row
      by_cases hk : k = u
      · subst hk
        simp [addEdge] at h
        subst h
        intro row2 hrow2 p hp
        rcases List.mem_cons.mp hrow2 with h2 | h2
        · subst h2
          rcases mem_dictSet hp with h3 | h3
          · subst h3; exact hq
          · exact hnb (k, inner) (List.mem_cons_self _ _) p h3
        · exact hnb row2 (List.mem_cons_of_mem _ h2) p hp
      · simp only [addEdge, if_neg hk, Option.map_eq_some'] at h
        obtain ⟨r, hr, hcons⟩ := h
        subst hcons
        intro row2 hrow2 p hp
        rcases List.mem_cons.mp hrow2 with h2 | h2
        · subst h2; exact hnb (k, inner) (List.mem_cons_self _ _) p hp
        · exact ih hr
            (fun row3 hrow3 => hnb row3 (List.mem_cons_of_mem _ hrow3)) hq
            row2 h2 p hp

/-- The edge loop preserves any per-row property that all edges satisfy in
both directions. -/
theorem buildEdges_pres {Q : Node → Node × Int → Prop} :
    ∀ (edges : List (Node × Node × Int)) {nb nb2 : Nbrs Node},
      buildEdges edges nb = some nb2 → NbrProp Q nb →
      (∀ e ∈ edges, Q e.1 (e.2.1, e.2.2) ∧ Q e.2.1 (e.1, e.2.2)) →
      NbrProp Q nb2 := by
  intro edges
  induction edges with
  | nil =>
      intro nb nb2 h hnb _
      simp only [buildEdges, Option.some.injEq] at h
      subst h
      exact hnb
  | cons e rest ih =>
      intro nb nb2 h hnb hedges
      cases hA : addEdge nb e.1 e.2.1 e.2.2 with
      | none => simp [buildEdges, hA] at h
      | some nbA =>
          cases hB : addEdge nbA e.2.1 e.1 e.2.2 with
          | none => simp [buildEdges, hA, hB] at h
          | some nbB =>
              simp only [buildEdges, hA, hB] at h
              have hAinv := addEdge_pres hA hnb
                (hedges e (List.mem_cons_self e rest)).1
              have hBinv := addEdge_pres hB hAinv
                (hedges e (List.mem_cons_self e rest)).2
              exact ih h hBinv
                (fun e2 he2 => hedges e2 (List.mem_cons_of_mem _ he2))

/-- Reading a row of a neighbor map that satisfies `NbrProp Q` yields entries
satisfying `Q` of the row key. -/
theorem NbrProp_get {Q : Node → Node × Int → Prop} {nb : Nbrs Node}
    (h : NbrProp Q nb) (u : Node) :
    ∀ p ∈ dictGetD nb u [], Q u p := by
  induction nb with
  | nil => simp [dictGetD]
  | cons row rest ih =>
      obtain ⟨k, inner⟩ := row
      by_cases hk : k = u
      · subst hk
        simp only [dictGetD, if_pos rfl]
        exact fun p hp => h (k, inner) (List.mem_cons_self _ _) p hp
      · simp only [dictGetD, if_neg hk]
        exact ih (fun row2 hrow2 => h row2 (List.mem_cons_of_mem _ hrow2))

theorem dictGetD_map_const (l : List Node) (b : Node) :
    dictGetD (l.map (fun d => (d, INF))) b INF = INF := by
  induction l with
  | nil => rfl
  | cons d rest ih => by_cases h : d = b <;> simp [dictGetD, h, ih]

theorem tGet_map_const {g : Node → List (Node × Int)}
    (hg : ∀ u b, dictGetD (g u) b INF = INF) :
    ∀ (l : List Node) (a b : Node),
      tGet (l.map (fun u => (u, g u))) a b INF = INF := by
  intro l
  induction l with
  | nil => intro a b; rfl
  | cons u rest ih =>
      intro a b
      by_cases h : u = a
      · subst h; simp [tGet, dictGetD, hg]
      · simpa [tGet, dictGetD, h] using ih a b

/-- Every entry of the freshly initialised distance table is `INF`. -/
theorem tGet_distInit (nodes : List Node) (a b : Node) :
    tGet (distInit nodes) a b INF = INF :=
  tGet_map_const (fun _ b2 => dictGetD_map_const nodes b2) nodes a b

theorem NonNegD_tSet {d : Dist Node} {u dd : Node} {x : Int}
    (hd : NonNegD d) (hx : 0 ≤ x) : NonNegD (tSet d u dd x) := by
  intro a b
  by_cases h : a = u ∧ b = dd
  · obtain ⟨h1, h2⟩ := h
    subst h1; subst h2
    rw [tGet_tSet_self]
    exact hx
  · rw [tGet_tSet_ne _ _ _ (not_and_or.mp h)]
    exact hd a b

/-- Processing node `u` in the init loop establishes its self entry, because
`u` is never its own neighbor when no edge is a self-loop. -/
theorem initNodeStep_self {nb : Nbrs Node}
    (hns : NbrProp (fun k p => p.1 ≠ k) nb)
    (acc : Dist Node × NextHop Node) (u : Node) :
    tGet (initNodeStep nb acc u).1 u u INF = 0 ∧
      tGet (initNodeStep nb acc u).2 u u none = some u := by
  simp only [initNodeStep]
  refine foldl_pres (P := fun acc2 : Dist Node × NextHop Node =>
      tGet acc2.1 u u INF = 0 ∧ tGet acc2.2 u u none = some u) _ _
    ⟨tGet_tSet_self _ _ _ _ _, tGet_tSet_self _ _ _ _ _⟩ ?_
  intro acc2 vc hvc hacc2
  have hne : vc.1 ≠ u := NbrProp_get hns u vc hvc
  exact ⟨(tGet_tSet_ne acc2.1 vc.2 INF (Or.inr (Ne.symm hne))).trans hacc2.1,
    (tGet_tSet_ne acc2.2 (some vc.1) none (Or.inr (Ne.symm hne))).trans hacc2.2⟩

/-- Processing a different node in the init loop does not touch `u`'s row. -/
theorem initNodeStep_other (nb : Nbrs Node)
    (acc : Dist Node × NextHop Node) {w u : Node} (hw : u ≠ w)
    (h : tGet acc.1 u u INF = 0 ∧ tGet acc.2 u u none = some u) :
    tGet (initNodeStep nb acc w).1 u u INF = 0 ∧
      tGet (initNodeStep nb acc w).2 u u none = some u := by
  simp only [initNodeStep]
  refine foldl_pres (P := fun acc2 : Dist Node × NextHop Node =>
      tGet acc2.1 u u INF = 0 ∧ tGet acc2.2 u u none = some u) _ _
    ⟨(tGet_tSet_ne acc.1 0 INF (Or.inl hw)).trans h.1,
     (tGet_tSet_ne acc.2 (some w) none (Or.inl hw)).trans h.2⟩ ?_
  intro acc2 vc _ hacc2
  exact ⟨(tGet_tSet_ne acc2.1 vc.2 INF (Or.inl hw)).trans hacc2.1,
    (tGet_tSet_ne acc2.2 (some vc.1) none (Or.inl hw)).trans hacc2.2⟩

/-- After the init loop, every node that occurs in the processed list (or
already had its self entry) has self entry `(0, itself)`. -/
theorem initFold_self {nb : Nbrs Node}
    (hns : NbrProp (fun k p => p.1 ≠ k) nb) :
    ∀ (l : List Node) (acc : Dist Node × NextHop Node) (u : Node),
      (u ∈ l ∨ (tGet acc.1 u u INF = 0 ∧ tGet acc.2 u u none = some u)) →
      tGet (l.foldl (initNodeStep nb) acc).1 u u INF = 0 ∧
        tGet (l.foldl (initNodeStep nb) acc).2 u u none = some u := by
  intro l
  induction l with
  | nil =>
      intro acc u h
      rcases h with h | h
      · simp at h
      · exact h
  | cons w rest ih =>
      intro acc u h
      rw [List.foldl_cons]
      by_cases hw : u = w
      · subst hw
        exact ih _ u (Or.inr (initNodeStep_self hns acc u))
      · rcases h with h | h
        · rcases List.mem_cons.mp h with h1 | h1
          · exact absurd h1 hw
          · exact ih _ u (Or.inl h1)
        · exact ih _ u (Or.inr (initNodeStep_other nb acc hw h))

/-- The init loop writes only nonnegative costs when all link costs are
positive. -/
theorem initFold_nonneg {nb : Nbrs Node}
    (hpos : NbrProp (fun _ p => 0 < p.2) nb) :
    ∀ (l : List Node) (acc : Dist Node × NextHop Node),
      NonNegD acc.1 → NonNegD (l.foldl (initNodeStep nb) acc).1 := by
  intro l
  induction l with
  | nil => intro acc h; exact h
  | cons w rest ih =>
      intro acc h
      rw [List.foldl_cons]
      refine ih _ ?_
      simp only [initNodeStep]
      refine foldl_pres (P := fun acc2 : Dist Node × NextHop Node =>
          NonNegD acc2.1) _ _ (NonNegD_tSet h (le_refl 0)) ?_
      intro acc2 vc hvc hacc2
      exact NonNegD_tSet hacc2 (le_of_lt (NbrProp_get hpos w vc hvc))

/-- One inner update preserves nonnegativity of the live table and the self
entries of all listed nodes, provided the link cost is positive and the
frozen snapshot is nonnegative. -/
theorem innerStep_inv (pr : Bool) (oldd : Dist Node) (oldn : NextHop Node)
    (u v : Node) (cuv : Int) (st : DVState Node) (dest : Node)
    (nodes : List Node) (hcuv : 0 < cuv) (hold : NonNegD oldd)
    (h : NonNegD st.dist ∧ SelfOK nodes st.dist st.next_hop) :
    NonNegD (innerStep pr oldd oldn u v cuv st dest).dist ∧
      SelfOK nodes (innerStep pr oldd oldn u v cuv st dest).dist
        (innerStep pr oldd oldn u v cuv st dest).next_hop := by
  by_cases h1 : INF ≤ tGet oldd u v INF
  · simpa [innerStep, h1] using h
  · by_cases h2 : via_cost cuv (advCost pr oldd oldn v u dest) <
        tGet st.dist u dest INF
    · have hadv : 0 ≤ advCost pr oldd oldn v u dest := by
        by_cases hc : pr = true ∧ tGet oldn v dest none = some u
        · simp only [advCost, if_pos hc]; decide
        · simp only [advCost, if_neg hc]; exact hold v dest
      have hvia : 0 < via_cost cuv (advCost pr oldd oldn v u dest) := by
        unfold via_cost; omega
      constructor
      · simp only [innerStep, if_neg h1, if_pos h2]
        exact NonNegD_tSet h.1 (le_of_lt hvia)
      · simp only [innerStep, if_neg h1, if_pos h2]
        intro w hw
        by_cases hcell : w = u ∧ w = dest
        · obtain ⟨hw1, hw2⟩ := hcell
          subst hw1
          subst hw2
          have hzero := (h.2 w hw).1
          rw [hzero] at h2
          omega
        · have hne : w ≠ u ∨ w ≠ dest := not_and_or.mp hcell
          constructor
          · rw [tGet_tSet_ne _ _ _ hne]; exact (h.2 w hw).1
          · rw [tGet_tSet_ne _ _ _ hne]; exact (h.2 w hw).2
    · simpa [innerStep, h1, h2] using h

/-- One synchronous round preserves nonnegativity and the self-route
invariant when all link costs in the neighbor map are positive. -/
theorem roundStep_inv (nodes : List Node) (nb : Nbrs Node) (pr : Bool)
    (d : Dist Node) (n : NextHop Node)
    (hpos : NbrProp (fun _ p => 0 < p.2) nb)
    (hd : NonNegD d) (hself : SelfOK nodes d n) :
    NonNegD (roundStep nodes nb pr d n).dist ∧
      SelfOK nodes (roundStep nodes nb pr d n).dist
        (roundStep nodes nb pr d n).next_hop := by
  refine foldl_pres (P := fun st : DVState Node =>
      NonNegD st.dist ∧ SelfOK nodes st.dist st.next_hop)
    nodes ⟨d, n, false⟩ ⟨hd, hself⟩ ?_
  intro st u _ hst
  refine foldl_pres (P := fun st : DVState Node =>
      NonNegD st.dist ∧ SelfOK nodes st.dist st.next_hop) _ st hst ?_
  intro st2 vc hvc hst2
  have hc : 0 < vc.2 := NbrProp_get hpos u vc hvc
  refine foldl_pres (P := fun st : DVState Node =>
      NonNegD st.dist ∧ SelfOK nodes st.dist st.next_hop) nodes st2 hst2 ?_
  intro st3 dest _ hst3
  exact innerStep_inv pr d n u vc.1 vc.2 st3 dest nodes hc hd hst3

/-- The whole round loop preserves nonnegativity and the self-route
invariant. -/
theorem dvLoopF_inv (nodes : List Node) (nb : Nbrs Node) (pr : Bool)
    (hpos : NbrProp (fun _ p => 0 < p.2) nb) :
    ∀ (fuel : Nat) (d : Dist Node) (n : NextHop Node) (it : Nat),
      NonNegD d → SelfOK nodes d n →
      NonNegD (dvLoopF nodes nb pr fuel d n it).1 ∧
        SelfOK nodes (dvLoopF nodes nb pr fuel d n it).1
          (dvLoopF nodes nb pr fuel d n it).2.1 := by
  intro fuel
  induction fuel with
  | zero => intro d n it hd hself; exact ⟨hd, hself⟩
  | succ fuel ih =>
      intro d n it hd hself
      have hround := roundStep_inv nodes nb pr d n hpos hd hself
      by_cases hu : (roundStep nodes nb pr d n).updated = false
      · simp only [dvLoopF, if_pos hu]
        exact hround
      · by_cases hgt : 50 < it + 1
        · simp only [dvLoopF, if_neg hu, if_pos hgt]
          exact hround
        · simp only [dvLoopF, if_neg hu, if_neg hgt]
          exact ih _ _ _ hround.1 hround.2

/-- Claim C1: the vector a node `v` advertises to a neighbor `u` in a round
carries the `INF` sentinel for every destination whose previous-round next hop
at `v` equals `u` when poisoned reverse is enabled, and `v`'s previous-round
cost otherwise; with poisoned reverse disabled the advertised cost is always
the previous-round cost.  `advCost` is the per-destination entry of the
advertised vector that the round loop (`innerStep`) consumes, computed from
the frozen previous-round snapshot `oldd`/`oldn`. -/
theorem claim_C1_poisoned_advertisement (pr : Bool) (oldd : Dist Node)
    (oldn : NextHop Node) (v u dest : Node) :
    (pr = true → tGet oldn v dest none = some u →
      advCost pr oldd oldn v u dest = INF) ∧
    (pr = true → tGet oldn v dest none ≠ some u →
      advCost pr oldd oldn v u dest = tGet oldd v dest INF) ∧
    (pr = false → advCost pr oldd oldn v u dest = tGet oldd v dest INF) :=
  ⟨fun hpr hn => by simp [advCost, hpr, hn],
   fun hpr hn => by simp [advCost, hn],
   fun hpr => by simp [advCost, hpr]⟩

/-- Witness for C1 at the spec scenario: sender `X` routes to `Z` via
neighbor `Y` at cost 7; the vector sent to `Y` poisons `Z`, the vector sent
to bystander `W` does not, and with the policy off `Y` sees the true cost. -/
theorem claim_C1_poisoned_advertisement_witness :
    advCost true ([("X", [("Z", (7 : Int))])] : Dist String)
        [("X", [("Z", some "Y")])] "X" "Y" "Z" = INF ∧
    advCost true ([("X", [("Z", (7 : Int))])] : Dist String)
        [("X", [("Z", some "Y")])] "X" "W" "Z" = 7 ∧
    advCost false ([("X", [("Z", (7 : Int))])] : Dist String)
        [("X", [("Z", some "Y")])] "X" "Y" "Z" = 7 :=
  ⟨(claim_C1_poisoned_advertisement true _ _ "X" "Y" "Z").1 rfl (by decide),
   by
    have h := (claim_C1_poisoned_advertisement true
      ([("X", [("Z", (7 : Int))])] : Dist String)
      [("X", [("Z", some "Y")])] "X" "W" "Z").2.1 rfl (by decide)
    rw [h]; decide,
   by
    have h := (claim_C1_poisoned_advertisement false
      ([("X", [("Z", (7 : Int))])] : Dist String)
      [("X", [("Z", some "Y")])] "X" "Y" "Z").2.2 rfl
    rw [h]; decide⟩

/-- Counterexample for C2 as stated: a zero cost, a negative cost, and a
duplicate unordered pair with conflicting costs are all accepted at
construction time with no error of any kind (the later duplicate merely
overwrites: the final `A -> B` cost is 2). -/
theorem claim_C2_counterexample :
    (init_tables ["A", "B"] [("A", "B", (0 : Int))]).isSome = true ∧
    (init_tables ["A", "B"] [("A", "B", (-3 : Int))]).isSome = true ∧
    (init_tables ["A", "B"]
      [("A", "B", (1 : Int)), ("A", "B", (2 : Int))]).isSome = true ∧
    (init_tables ["A", "B"]
        [("A", "B", (1 : Int)), ("A", "B", (2 : Int))]).map
      (fun t => tGet t.2.1 "A" "B" INF) = some 2 :=
  ⟨by decide, by decide, by decide, by decide⟩

/-- Claim C2 (amended): construction fails only when a link references an
identity outside the node list (Python's `KeyError`, not a dedicated
`InvalidTopologyError`, which the code never defines); non-positive costs and
duplicate pairs, conflicting or not, are accepted silently. -/
theorem claim_C2_construction_errors (nodes : List Node)
    (edges : List (Node × Node × Int)) :
    (init_tables nodes edges).isSome = true ↔
      ∀ e ∈ edges, e.1 ∈ nodes ∧ e.2.1 ∈ nodes := by
  unfold init_tables
  rw [Option.isSome_map']
  unfold buildNbrs
  rw [buildEdges_isSome]
  simp [List.map_map, Function.comp]

/-- Witness for the amended C2: both directions at concrete inputs. -/
theorem claim_C2_construction_errors_witness :
    (init_tables ["A", "B"] [("A", "B", (2 : Int))]).isSome = true ∧
    ¬ (init_tables ["A", "B"] [("A", "Q", (2 : Int))]).isSome = true :=
  ⟨(claim_C2_construction_errors ["A", "B"] [("A", "B", (2 : Int))]).mpr
      (by decide),
   fun h => by
    have := (claim_C2_construction_errors ["A", "B"]
      [("A", "Q", (2 : Int))]).mp h
    exact absurd (this ("A", "Q", 2) (by decide)).2 (by decide)⟩

/-- Claim C3: the round loop always terminates; the exit iteration count is
at most 51, and any exit that is not the converged one (no updates in the
round) happens exactly at iteration 51, i.e. right after the counter exceeds
the safety bound of 50. -/
theorem claim_C3_termination (nodes : List Node)
    (edges : List (Node × Node × Int)) (pr : Bool)
    (r : Dist Node × NextHop Node × Nat × Bool)
    (h : dvDriver nodes edges pr = some r) :
    r.2.2.1 ≤ 51 ∧ (r.2.2.2 = true ∨ r.2.2.1 = 51) := by
  unfold dvDriver at h
  cases hinit : init_tables nodes edges with
  | none => rw [hinit] at h; simp at h
  | some t =>
      rw [hinit, Option.map_some', Option.some.injEq] at h
      subst h
      exact dvLoopF_iterations nodes t.1 pr 51 t.2.1 t.2.2 0 rfl

/-- Witness for C3: the single-node run converges after one round. -/
theorem claim_C3_termination_witness :
    (([("A", [("A", (0 : Int))])], [("A", [("A", some "A")])], 1, true) :
        Dist String × NextHop String × Nat × Bool).2.2.1 ≤ 51 ∧
      ((([("A", [("A", (0 : Int))])], [("A", [("A", some "A")])], 1, true) :
          Dist String × NextHop String × Nat × Bool).2.2.2 = true ∨
        (([("A", [("A", (0 : Int))])], [("A", [("A", some "A")])], 1, true) :
          Dist String × NextHop String × Nat × Bool).2.2.1 = 51) :=
  claim_C3_termination ["A"] [] false _ rfl

/-- Claim C4: for every node `u` of the topology, the routing entry of `u`
for destination `u` is `(cost 0, next hop u)` after initialization, after
every number of synchronous rounds, and in the final tables of the loop —
under the data-model invariants on links (no self-loops, positive costs). -/
theorem claim_C4_self_route (nodes : List Node)
    (edges : List (Node × Node × Int)) (pr : Bool) (nb : Nbrs Node)
    (d0 : Dist Node) (n0 : NextHop Node) (u : Node)
    (hne : ∀ e ∈ edges, e.1 ≠ e.2.1) (hpos : ∀ e ∈ edges, 0 < e.2.2)
    (hinit : init_tables nodes edges = some (nb, d0, n0)) (hu : u ∈ nodes) :
    (tGet d0 u u INF = 0 ∧ tGet n0 u u none = some u) ∧
    (∀ m : Nat,
      tGet ((roundTables nodes nb pr)^[m] (d0, n0)).1 u u INF = 0 ∧
        tGet ((roundTables nodes nb pr)^[m] (d0, n0)).2 u u none = some u) ∧
    (tGet (dvLoopF nodes nb pr 51 d0 n0 0).1 u u INF = 0 ∧
      tGet (dvLoopF nodes nb pr 51 d0 n0 0).2.1 u u none = some u) := by
  unfold init_tables at hinit
  cases hb : buildNbrs nodes edges with
  | none => rw [hb] at hinit; simp at hinit
  | some nbv =>
      rw [hb] at hinit
      simp only [Option.map_some', Option.some.injEq, Prod.mk.injEq] at hinit
      obtain ⟨h1, h2, h3⟩ := hinit
      subst h1; subst h2; subst h3
      unfold buildNbrs at hb
      have hinit0 : NbrProp (fun (_ : Node) (_ : Node × Int) => True)
          (nodes.map (fun u => (u, []))) := fun row hrow p hp => trivial
      have hempty : ∀ (Q : Node → Node × Int → Prop),
          NbrProp Q (nodes.map (fun u => (u, []))) := by
        intro Q row hrow p hp
        obtain ⟨u2, _, rfl⟩ := List.mem_map.mp hrow
        simp at hp
      have hposnb : NbrProp (fun _ p => 0 < p.2) nbv :=
        buildEdges_pres edges hb (hempty _)
          (fun e he => ⟨hpos e he, hpos e he⟩)
      have hnsnb : NbrProp (fun k p => p.1 ≠ k) nbv :=
        buildEdges_pres edges hb (hempty _)
          (fun e he => ⟨Ne.symm (hne e he), hne e he⟩)
      have hself0 : SelfOK nodes (initLoop nodes nbv (distInit nodes)
          (nhInit nodes)).1 (initLoop nodes nbv (distInit nodes)
          (nhInit nodes)).2 :=
        fun w hw => initFold_self hnsnb nodes
          (distInit nodes, nhInit nodes) w (Or.inl hw)
      have hnn0 : NonNegD (initLoop nodes nbv (distInit nodes)
          (nhInit nodes)).1 :=
        initFold_nonneg hposnb nodes (distInit nodes, nhInit nodes)
          (fun a b => by rw [tGet_distInit]; decide)
      have hiter : ∀ (m : Nat) (dn : Dist Node × NextHop Node),
          NonNegD dn.1 → SelfOK nodes dn.1 dn.2 →
          NonNegD ((roundTables nodes nbv pr)^[m] dn).1 ∧
            SelfOK nodes ((roundTables nodes nbv pr)^[m] dn).1
              ((roundTables nodes nbv pr)^[m] dn).2 := by
        intro m
        induction m with
        | zero => intro dn h1 h2; exact ⟨h1, h2⟩
        | succ m ihm =>
            intro dn h1 h2
            rw [Function.iterate_succ_apply']
            have hr := roundStep_inv nodes nbv pr _ _ hposnb
              (ihm dn h1 h2).1 (ihm dn h1 h2).2
            simpa [roundTables] using hr
      refine ⟨⟨(hself0 u hu).1, (hself0 u hu).2⟩, fun m => ?_, ?_⟩
      · have hm := (hiter m _ hnn0 hself0).2 u hu
        exact ⟨hm.1, hm.2⟩
      · have hl := dvLoopF_inv nodes nbv pr hposnb 51 _ _ 0 hnn0 hself0
        exact ⟨(hl.2 u hu).1, (hl.2 u hu).2⟩

/-- Witness for C4 on the two-node link `A - B` of cost 1 with poisoned
reverse on: the self entry of `A` after initialization and after one round. -/
theorem claim_C4_self_route_witness :
    (tGet ([("A", [("A", (0 : Int)), ("B", 1)]),
        ("B", [("A", 1), ("B", 0)])] : Dist String) "A" "A" INF = 0 ∧
      tGet ([("A", [("A", some "A"), ("B", some "B")]),
        ("B", [("A", some "A"), ("B", some "B")])] : NextHop String)
        "A" "A" none = some "A") ∧
    (tGet ((roundTables ["A", "B"] [("A", [("B", (1 : Int))]),
          ("B", [("A", 1)])] true)^[1]
        ([("A", [("A", (0 : Int)), ("B", 1)]), ("B", [("A", 1), ("B", 0)])],
         [("A", [("A", some "A"), ("B", some "B")]),
          ("B", [("A", some "A"), ("B", some "B")])])).1 "A" "A" INF = 0 ∧
      tGet ((roundTables ["A", "B"] [("A", [("B", (1 : Int))]),
          ("B", [("A", 1)])] true)^[1]
        ([("A", [("A", (0 : Int)), ("B", 1)]), ("B", [("A", 1), ("B", 0)])],
         [("A", [("A", some "A"), ("B", some "B")]),
          ("B", [("A", some "A"), ("B", some "B")])])).2 "A" "A" none =
        some "A") := by
  have h := claim_C4_self_route ["A", "B"] [("A", "B", 1)] true
    [("A", [("B", (1 : Int))]), ("B", [("A", 1)])]
    [("A", [("A", (0 : Int)), ("B", 1)]), ("B", [("A", 1), ("B", 0)])]
    [("A", [("A", some "A"), ("B", some "B")]),
     ("B", [("A", some "A"), ("B", some "B")])] "A"
    (by decide) (by decide) rfl (by decide)
  exact ⟨h.1, h.2.1 1⟩

/-- Claim C5: for every node and destination, the recorded cost never
increases: one synchronous round never increases any table entry, and neither
does the whole round loop. -/
theorem claim_C5_monotone_costs (nodes : List Node) (nb : Nbrs Node)
    (pr : Bool) (d : Dist Node) (n : NextHop Node) (fuel it : Nat)
    (a b : Node) :
    tGet (roundStep nodes nb pr d n).dist a b INF ≤ tGet d a b INF ∧
      tGet (dvLoopF nodes nb pr fuel d n it).1 a b INF ≤ tGet d a b INF :=
  ⟨roundStep_dist_le nodes nb pr d n a b,
   dvLoopF_dist_le nodes nb pr fuel d n it a b⟩

set_option maxRecDepth 40000 in
/-- Counterexample for C6: swapping the first two edges of the square
topology `A-B, A-C, B-D, C-D` (all costs 1) is a permutation of the edge
list, yet the final next-hop table differs: `A` reaches `D` via `B` under one
order and via `C` under the other (the equal-cost tie is broken by neighbor
iteration order). -/
theorem claim_C6_counterexample :
    ([("A", "C", (1 : Int)), ("A", "B", 1), ("B", "D", 1), ("C", "D", 1)] :
        List (String × String × Int)).Perm
      [("A", "B", 1), ("A", "C", 1), ("B", "D", 1), ("C", "D", 1)] ∧
    (distance_vector ["A", "B", "C", "D"]
        [("A", "B", (1 : Int)), ("A", "C", 1), ("B", "D", 1), ("C", "D", 1)]
        false true).map (fun p => tGet p.2 "A" "D" none) = some (some "B") ∧
    (distance_vector ["A", "B", "C", "D"]
        [("A", "C", (1 : Int)), ("A", "B", 1), ("B", "D", 1), ("C", "D", 1)]
        false true).map (fun p => tGet p.2 "A" "D" none) = some (some "C") :=
  ⟨by decide, by decide, by decide⟩

set_option maxRecDepth 40000 in
/-- Claim C6 (amended): at the same instance, reordering the edge list leaves
the final dist table and the iteration count / termination state unchanged;
only the next-hop table is order-sensitive (on equal-cost ties). -/
theorem claim_C6_order_sensitivity :
    (distance_vector ["A", "B", "C", "D"]
        [("A", "B", (1 : Int)), ("A", "C", 1), ("B", "D", 1), ("C", "D", 1)]
        false true).map Prod.fst =
      (distance_vector ["A", "B", "C", "D"]
        [("A", "C", (1 : Int)), ("A", "B", 1), ("B", "D", 1), ("C", "D", 1)]
        false true).map Prod.fst ∧
    (dvDriver ["A", "B", "C", "D"]
        [("A", "B", (1 : Int)), ("A", "C", 1), ("B", "D", 1), ("C", "D", 1)]
        false).map (fun r => r.2.2) =
      (dvDriver ["A", "B", "C", "D"]
        [("A", "C", (1 : Int)), ("A", "B", 1), ("B", "D", 1), ("C", "D", 1)]
        false).map (fun r => r.2.2) :=
  ⟨by decide, by decide⟩

/-- Claim C7 (amended): the value `distance_vector` returns is exactly the
pair of final tables — the projection of the full loop state that drops the
iteration count and the converged flag.  Those two pieces of data exist only
as internal loop state (printed when verbose). -/
theorem claim_C7_output_shape (nodes : List Node)
    (edges : List (Node × Node × Int)) (pr vb : Bool) :
    distance_vector nodes edges pr vb =
      (dvDriver nodes edges pr).map (fun r => (r.1, r.2.1)) := by
  unfold distance_vector dvDriver
  cases init_tables nodes edges <;> simp

set_option maxRecDepth 40000 in
/-- Counterexample for C7 as stated: this run stops via the 50-iteration
safety break (internal state: iteration 51, not converged), yet its returned
value is exactly the bare table pair — the output contains no iteration count
and no termination state, so the caller cannot tell this aborted run apart
from a converged one by the output alone. -/
theorem claim_C7_counterexample :
    (dvDriver ["A", "B"] [("A", "B", (-1 : Int))] false).map
        (fun r => (r.2.2.1, r.2.2.2)) = some (51, false) ∧
    distance_vector ["A", "B"] [("A", "B", (-1 : Int))] false true =
      (dvDriver ["A", "B"] [("A", "B", (-1 : Int))] false).map
        (fun r => (r.1, r.2.1)) :=
  ⟨by decide, rfl⟩

/-- Counterexample for C8 as stated: with link cost 1 and an advertised
`INF`, the candidate cost of line 94 is `INF + 1`, not `INF`: the addition
does not saturate at the sentinel. -/
theorem claim_C8_counterexample : via_cost 1 INF ≠ INF := by decide

/-- Claim C8 (amended): an `INF` advertisement plus a positive link cost
strictly exceeds `INF` (exact unbounded arithmetic: no saturation, but also
no overflow wraparound); such a candidate can never pass the
strict-improvement test against any entry that is at most `INF`, and one
round keeps every entry at most `INF`. -/
theorem claim_C8_inf_candidates (nodes : List Node) (nb : Nbrs Node)
    (pr : Bool) (d : Dist Node) (n : NextHop Node) (cuv : Int) (a b : Node)
    (hc : 0 < cuv) (hd : ∀ a b, tGet d a b INF ≤ INF) :
    INF < via_cost cuv INF ∧ ¬ via_cost cuv INF < tGet d a b INF ∧
      tGet (roundStep nodes nb pr d n).dist a b INF ≤ INF := by
  have h1 : INF < via_cost cuv INF := by unfold via_cost; omega
  exact ⟨h1, not_lt.mpr (le_trans (hd a b) (le_of_lt h1)),
    le_trans (roundStep_dist_le nodes nb pr d n a b) (hd a b)⟩

/-- Witness for the amended C8 on empty tables (every entry is the `INF`
default). -/
theorem claim_C8_inf_candidates_witness :
    INF < via_cost 1 INF ∧
      ¬ via_cost 1 INF < tGet ([] : Dist String) "A" "B" INF ∧
      tGet (roundStep ["A"] [("A", [])] false ([] : Dist String) []).dist
        "A" "A" INF ≤ INF :=
  claim_C8_inf_candidates ["A"] [("A", [])] false [] [] 1 "A" "A"
    (by decide) (fun a b => le_of_eq rfl)

/-- Claim C9: `send_vector` copies the sender's distance map unchanged for
either value of `use_poisoned_reverse` — the poisoning branch is a no-op, so
no advertised cost is ever replaced by the `INF` sentinel. -/
theorem claim_C9_send_vector_id (f t : Node) (d : List (Node × Int))
    (b : Bool) (h : (d.map Prod.fst).Nodup) : send_vector f t d b = d := by
  unfold send_vector
  have hfun : (fun (vec : List (Node × Int)) (dc : Node × Int) =>
      if b = true then dictSet vec dc.1 dc.2 else dictSet vec dc.1 dc.2) =
      fun vec dc => dictSet vec dc.1 dc.2 := by
    funext vec dc
    exact ite_self _
  rw [hfun]
  simpa using foldl_dictSet_eq d [] (by simpa using h)

/-- Witness for C9 with the flag on. -/
theorem claim_C9_send_vector_id_witness :
    send_vector "A" "B" [("A", (0 : Int)), ("B", 1), ("C", 5)] true =
      [("A", 0), ("B", 1), ("C", 5)] :=
  claim_C9_send_vector_id "A" "B" _ true (by decide)

end DVA

namespace Bit_stuffing

theorem unstuffAux_false (rest : List Bool) (c : Nat) :
    unstuffAux (false :: rest) c = false :: unstuffAux rest 0 := by
  cases rest <;> simp [unstuffAux]

theorem unstuffAux_true_ne (rest : List Bool) (c : Nat) (h : ¬ c + 1 = 5) :
    unstuffAux (true :: rest) c = true :: unstuffAux rest (c + 1) := by
  cases rest <;> simp [unstuffAux, h]

theorem unstuffAux_true_five (b2 : Bool) (rest : List Bool) (c : Nat)
    (h : c + 1 = 5) :
    unstuffAux (true :: b2 :: rest) c = true :: unstuffAux rest 0 := by
  simp [unstuffAux, h]

/-- Un-stuffing undoes stuffing from any synchronized ones-count below 5. -/
theorem unstuff_stuff : ∀ (l : List Bool) (c : Nat), c < 5 →
    unstuffAux (stuffAux l c) c = l := by
  intro l
  induction l with
  | nil => intro c _; rfl
  | cons b rest ih =>
      intro c hc
      cases b with
      | false =>
          rw [show stuffAux (false :: rest) c = false :: stuffAux rest 0 from
            by simp [stuffAux]]
          rw [unstuffAux_false, ih 0 (by omega)]
      | true =>
          by_cases h5 : c + 1 = 5
          · rw [show stuffAux (true :: rest) c =
                true :: false :: stuffAux rest 0 from by simp [stuffAux, h5]]
            rw [unstuffAux_true_five false _ c h5, ih 0 (by omega)]
          · rw [show stuffAux (true :: rest) c =
                true :: stuffAux rest (c + 1) from by simp [stuffAux, h5]]
            rw [unstuffAux_true_ne _ c h5, ih (c + 1) (by omega)]

set_option maxRecDepth 40000 in
/-- The 8-bit encoding of a byte value round-trips and has width 8. -/
theorem byte_roundtrip : ∀ n : Nat, n < 256 →
    (byteBits n).length = 8 ∧ bitsToNat (byteBits n) = n := by decide

theorem to_bits_cons (c : Nat) (s : List Nat) :
    to_bits (c :: s) = byteBits c ++ to_bits s := by
  simp [to_bits]

theorem to_bits_length (s : List Nat) (h : ∀ c ∈ s, c < 256) :
    (to_bits s).length = 8 * s.length := by
  induction s with
  | nil => rfl
  | cons c rest ih =>
      rw [to_bits_cons, List.length_append,
        (byte_roundtrip c (h c (List.mem_cons_self c rest))).1,
        ih (fun x hx => h x (List.mem_cons_of_mem _ hx))]
      simp only [List.length_cons]
      omega

theorem chunk8_append (block rest : List Bool) (h : block.length = 8) :
    chunk8 (block ++ rest) = block :: chunk8 rest := by
  rcases block with _ | ⟨b0, block⟩; · simp at h
  rcases block with _ | ⟨b1, block⟩; · simp at h
  rcases block with _ | ⟨b2, block⟩; · simp at h
  rcases block with _ | ⟨b3, block⟩; · simp at h
  rcases block with _ | ⟨b4, block⟩; · simp at h
  rcases block with _ | ⟨b5, block⟩; · simp at h
  rcases block with _ | ⟨b6, block⟩; · simp at h
  rcases block with _ | ⟨b7, block⟩; · simp at h
  rcases block with _ | ⟨b8, block⟩
  · rfl
  · simp only [List.length_cons] at h
    omega

theorem chunk8_to_bits (s : List Nat) (h : ∀ c ∈ s, c < 256) :
    chunk8 (to_bits s) = s.map byteBits := by
  induction s with
  | nil => rfl
  | cons c rest ih =>
      rw [to_bits_cons,
        chunk8_append _ _ (byte_roundtrip c (h c (List.mem_cons_self c rest))).1,
        ih (fun x hx => h x (List.mem_cons_of_mem _ hx))]
      rfl

/-- `from_bits` decodes `to_bits` back to the original code points. -/
theorem from_bits_to_bits (s : List Nat) (h : ∀ c ∈ s, c < 256) :
    from_bits (to_bits s) = some s := by
  unfold from_bits
  rw [if_pos (by rw [to_bits_length s h]; omega)]
  rw [chunk8_to_bits s h, List.map_map]
  congr 1
  calc s.map (bitsToNat ∘ byteBits)
  _ = s.map id := List.map_congr_left
        (fun x hx => (byte_roundtrip x (h x hx)).2)
  _ = s := List.map_id s

theorem take_append_self (l1 l2 : List Bool) : (l1 ++ l2).take l1.length = l1 := by
  induction l1 with
  | nil => rfl
  | cons b rest ih => simp [ih]

theorem drop_append_self (l1 l2 : List Bool) : (l1 ++ l2).drop l1.length = l2 := by
  induction l1 with
  | nil => rfl
  | cons b rest ih => simp [ih]

/-- Claim C10: for every message whose code points are all below 256,
un-stuffing the stuffed frame recovers the message exactly. -/
theorem claim_C10_roundtrip (s : List Nat) (h : ∀ c ∈ s, c < 256) :
    bit_unstuff (bit_stuff s) = some s := by
  unfold bit_stuff bit_unstuff
  set S := stuffAux (to_bits s) 0 with hS
  have htake : (FLAG_BITS ++ S ++ FLAG_BITS).take 8 = FLAG_BITS :=
    take_append_self FLAG_BITS (S ++ FLAG_BITS)
  have hassoc : FLAG_BITS ++ S ++ FLAG_BITS = (FLAG_BITS ++ S) ++ FLAG_BITS :=
    (List.append_assoc FLAG_BITS S FLAG_BITS).symm
  have hend : (FLAG_BITS ++ S ++ FLAG_BITS).drop
      ((FLAG_BITS ++ S ++ FLAG_BITS).length - 8) = FLAG_BITS := by
    have hl : (FLAG_BITS ++ S ++ FLAG_BITS).length - 8 =
        (FLAG_BITS ++ S).length := by
      simp [FLAG_BITS]
    rw [hl, hassoc]
    exact drop_append_self (FLAG_BITS ++ S) FLAG_BITS
  rw [if_pos (And.intro htake hend)]
  have hdrop8 : (FLAG_BITS ++ S ++ FLAG_BITS).drop 8 = S ++ FLAG_BITS :=
    drop_append_self FLAG_BITS (S ++ FLAG_BITS)
  rw [hdrop8]
  have hinner : (S ++ FLAG_BITS).take ((S ++ FLAG_BITS).length - 8) = S := by
    have hl2 : (S ++ FLAG_BITS).length - 8 = S.length := by simp [FLAG_BITS]
    rw [hl2]
    exact take_append_self S FLAG_BITS
  rw [hinner, hS, unstuff_stuff (to_bits s) 0 (by omega)]
  exact from_bits_to_bits s h

/-- Witness for C10 on the message `A}B` (code points 65, 125, 66; `}` has
five consecutive ones, so a zero actually gets stuffed and skipped). -/
theorem claim_C10_roundtrip_witness :
    bit_unstuff (bit_stuff [65, 125, 66]) = some [65, 125, 66] :=
  claim_C10_roundtrip [65, 125, 66] (by decide)

end Bit_stuffing


